import Mathlib

/-!
Verification development for the Word-report templating tool
(`remplace_rapport.py` and the `generate` endpoint of `app.py`).

The document object model (paragraphs made of runs, table cells, rows,
tables, section headers) is shallowly embedded: text is a list of
characters, a paragraph is a list of runs plus a style name, the document
body is an ordered list of blocks (paragraph or table), mirroring
`python-docx`'s `doc.paragraphs` / `doc.tables` / `iter_block_items`.
Python string primitives used by the source (`in`, `str.replace`,
`str.strip`, dict iteration in insertion order, `dict.get`) are modeled
by executable functions with the same semantics; mappings are association
lists in insertion order.  File existence (`Path.exists`) is abstracted
as a boolean predicate on paths, and picture embedding is recorded as an
image run carrying the path (geometry such as widths is formatting only
and is not modeled).
-/

set_option maxHeartbeats 1000000

namespace RapportAuto

/-- Text is modeled as a list of characters (Python `str`). -/
abbrev Str := List Char

/-- The character `{` (written via its code so that brace characters never
appear inside string literals in this file). -/
def lbrace : Char := Char.ofNat 123

/-- The character `}`. -/
def rbrace : Char := Char.ofNat 125

/-- ASCII whitespace, as recognized by Python `str.strip` on the inputs
this program deals with. -/
def isWS (c : Char) : Bool :=
  c == ' ' || c == '\t' || c == '\n' || c == '\r' || c == Char.ofNat 11 || c == Char.ofNat 12

/-- Python `str.lstrip()`. -/
def lstrip (s : Str) : Str := s.dropWhile isWS

/-- Python `str.rstrip()`. -/
def rstrip (s : Str) : Str := (s.reverse.dropWhile isWS).reverse

/-- Python `str.strip()`. -/
def strip (s : Str) : Str := lstrip (rstrip s)

/-- Boolean prefix test: does `pat` start `s`? -/
def isPrefixOfB : Str → Str → Bool
  | [], _ => true
  | _ :: _, [] => false
  | a :: as, b :: bs => a == b && isPrefixOfB as bs

/-- Python `pat in s` (substring test; the empty pattern is contained in
every string, as in Python). -/
def containsSub : Str → Str → Bool
  | [], pat => isPrefixOfB pat []
  | c :: rest, pat => isPrefixOfB pat (c :: rest) || containsSub rest pat

/-- Helper for Python `s.replace("", rep)`: `rep` interleaved around every
character and at both ends. -/
def interReplace (rep : Str) : Str → Str
  | [] => rep
  | c :: rest => rep ++ c :: interReplace rep rest

/-- Replacement scan for a non-empty pattern: replace each non-overlapping
occurrence of `pat`, scanning left to right (Python `str.replace`).  The
`Nat` argument counts characters of a just-matched occurrence still to be
consumed (the pattern tail), keeping the recursion structural on the
string. -/
def replaceGo (pat rep : Str) : Nat → Str → Str
  | _, [] => []
  | 0, c :: rest =>
    if isPrefixOfB pat (c :: rest) then rep ++ replaceGo pat rep (pat.length - 1) rest
    else c :: replaceGo pat rep 0 rest
  | n + 1, _ :: rest => replaceGo pat rep n rest

/-- Python `s.replace(pat, rep)` (all non-overlapping occurrences, left to
right; empty pattern interleaves as in Python). -/
def strReplace (s pat rep : Str) : Str :=
  match pat with
  | [] => interReplace rep s
  | _ :: _ => replaceGo pat rep 0 s

/-- A key-to-value mapping in insertion order (Python `dict`,
which iterates in insertion order). -/
abbrev Mapping := List (Str × Str)

/-- Python `dict` lookup (`mapping[k]` / `mapping.get(k)`); keys are
unique in the lists we build, and lookup takes the first binding. -/
def mapGet : Mapping → Str → Option Str
  | [], _ => none
  | (k, v) :: rest, key => if k = key then some v else mapGet rest key

/-- Python `mapping.get(key, "")`. -/
def mapGetD (m : Mapping) (k : Str) : Str := (mapGet m k).getD []

/-- First-occurrence deduplication with an explicit `seen` accumulator,
mirroring the `seen` set / `ordered` list idiom of the source. -/
def dedupFirst (seen : List Str) : List Str → List Str
  | [] => []
  | x :: rest => if x ∈ seen then dedupFirst seen rest else x :: dedupFirst (x :: seen) rest

/-- Is `c` a brace? -/
def isBrace (c : Char) : Bool := c == lbrace || c == rbrace

/-- Character state machine for
`re.findall` of `PLACEHOLDER_PATTERN = \x7b[^\x7b\x7d]+\x7d` (all
non-overlapping matches, left to right; a match is an opening brace, one
or more non-brace characters, and a closing brace).  The state is `none`
outside a candidate match and `some acc` after an opening brace, with
the candidate body accumulated in reverse; a second opening brace
restarts the candidate, and a closing brace emits the match when the
body is non-empty.  This is the leftmost-match scan of the regex: a
failed candidate can only resume at the next opening brace. -/
def scanPHAux : Option Str → Str → List Str
  | _, [] => []
  | none, c :: rest =>
    if c = lbrace then scanPHAux (some []) rest else scanPHAux none rest
  | some acc, c :: rest =>
    if c = rbrace then
      if acc.isEmpty then scanPHAux none rest
      else (lbrace :: (acc.reverse ++ [rbrace])) :: scanPHAux none rest
    else if c = lbrace then scanPHAux (some []) rest
    else scanPHAux (some (c :: acc)) rest

/-- `PLACEHOLDER_PATTERN.findall(text)`. -/
def scanPH (s : Str) : List Str := scanPHAux none s

/-! ### The document model -/

/-- A run: a piece of styled text, or an embedded picture
(`run.add_picture`). `python-docx` reports the empty string as the text
of a picture run. -/
inductive Run where
  | txt (s : Str)
  | img (path : Str)
  deriving DecidableEq

/-- The text of a run. -/
def Run.text : Run → Str
  | .txt s => s
  | .img _ => []

/-- A paragraph: its runs and the name of its style. -/
structure Para where
  runs : List Run
  style : Str
  deriving DecidableEq

/-- A table cell (a list of paragraphs, which is all the source ever
reads from a cell). -/
structure Cell where
  paras : List Para
  deriving DecidableEq

/-- A table row. -/
structure Row where
  cells : List Cell
  deriving DecidableEq

/-- A table. -/
structure Table where
  rows : List Row
  deriving DecidableEq

/-- A top-level body block: a paragraph or a table (`iter_block_items`). -/
inductive Block where
  | para (p : Para)
  | table (t : Table)
  deriving DecidableEq

/-- A section header: its paragraphs and its tables. -/
structure Header where
  paras : List Para
  tables : List Table
  deriving DecidableEq

/-- A document section (only its header is read by the source). -/
structure Sec where
  header : Header
  deriving DecidableEq

/-- A document: its sections and its body blocks in order. -/
structure Doc where
  sections : List Sec
  body : List Block
  deriving DecidableEq

/-- `paragraph.text`: concatenation of the texts of the runs. -/
def paraText (p : Para) : Str := (p.runs.map Run.text).flatten

/-- `cell.text`: paragraph texts joined by newlines (python-docx). -/
def joinNL : List Str → Str
  | [] => []
  | [s] => s
  | s :: rest => s ++ '\n' :: joinNL rest

/-- The text of a cell. -/
def cellText (c : Cell) : Str := joinNL (c.paras.map paraText)

/-- The concatenation of the cell texts of a row, as used by
`remove_empty_sim_tables`. -/
def rowText (r : Row) : Str := (r.cells.map cellText).flatten

/-- `doc.paragraphs`: the top-level body paragraphs, in order. -/
def docParagraphs (body : List Block) : List Para :=
  body.filterMap fun b => match b with
    | .para p => some p
    | .table _ => none

/-- `doc.tables`: the top-level body tables, in order. -/
def docTables (body : List Block) : List Table :=
  body.filterMap fun b => match b with
    | .table t => some t
    | .para _ => none

/-- All paragraphs of a table: row by row, cell by cell, in order. -/
def tableParas (t : Table) : List Para :=
  (t.rows.map (fun r => (r.cells.map Cell.paras).flatten)).flatten

/-- `iter_all_paragraphs`: top-level body paragraphs first, then the
paragraphs of every top-level table (row by row, cell by cell). -/
def iter_all_paragraphs (body : List Block) : List Para :=
  docParagraphs body ++ ((docTables body).map tableParas).flatten

/-- The style prefix `Heading`. -/
def litHeading : Str := "Heading".data

/-- The style prefix `Titre`. -/
def litTitre : Str := "Titre".data

/-- `is_heading`: the style name starts with `Heading` or `Titre`. -/
def is_heading (p : Para) : Bool :=
  isPrefixOfB litHeading p.style || isPrefixOfB litTitre p.style

/-- Placeholders of one paragraph, in order (`PLACEHOLDER_PATTERN.findall(p.text)`). -/
def paraPHs (p : Para) : List Str := scanPH (paraText p)

/-- Placeholder occurrences of one header: header paragraphs first, then
header tables (row by row, cell by cell). -/
def headerScan (h : Header) : List Str :=
  (h.paras.map paraPHs).flatten ++ ((h.tables.map tableParas).flatten.map paraPHs).flatten

/-- The placeholder occurrences traversed by
`find_placeholders_in_order`, with duplicates: each section header
(paragraphs then tables) in section order, then the body via
`iter_all_paragraphs`. -/
def docScanList (doc : Doc) : List Str :=
  (doc.sections.map (fun s => headerScan s.header)).flatten ++
    ((iter_all_paragraphs doc.body).map paraPHs).flatten

/-- `find_placeholders_in_order`: the traversal of `docScanList`,
deduplicated keeping first occurrences (the `seen` set of the source). -/
def find_placeholders_in_order (doc : Doc) : List Str :=
  dedupFirst [] (docScanList doc)

/-- `collect_headings_in_order`: all heading paragraphs reachable through
`iter_all_paragraphs` (body paragraphs and table-cell paragraphs). -/
def collect_headings_in_order (doc : Doc) : List Para :=
  (iter_all_paragraphs doc.body).filter is_heading

/-! ### Substitution engine (`replace_in_runs`) -/

/-- The loop of `replace_in_runs` over the mapping items, in insertion
order, threading the evolving text.  `none` models the
`remove_entire` / `return True` outcome (the paragraph is removed);
`some t` is the final text when the paragraph survives.  A key is skipped
when it does not occur in the current text; a key with an empty value
triggers removal only outside table cells (and when deletion is allowed),
and is otherwise replaced by the empty string in place. -/
def replaceLoop : Mapping → Str → Bool → Bool → Option Str
  | [], t, _, _ => some t
  | (old, nw) :: rest, t, inCell, allowDel =>
    if containsSub t old = false then replaceLoop rest t inCell allowDel
    else if nw = [] then
      if allowDel && !inCell then none
      else replaceLoop rest (strReplace t old nw) inCell allowDel
    else replaceLoop rest (strReplace t old nw) inCell allowDel

/-- Setting every run text to the empty string
(`for run in list(paragraph.runs): run.text = ""`; the python-docx text
setter clears the run content, pictures included). -/
def clearedRuns (rs : List Run) : List Run := rs.map fun _ => Run.txt []

/-- The run rewrite at the end of `replace_in_runs`: if the final text is
unchanged the paragraph is left untouched, otherwise every existing run
is emptied and one new run carrying the whole new text is appended. -/
def rewriteResult (p : Para) (newText : Str) : Para :=
  if newText = paraText p then p
  else { p with runs := clearedRuns p.runs ++ [Run.txt newText] }

/-- `replace_in_runs(paragraph, mapping, allow_delete)`.  `inCell` is the
value of `is_in_table_cell(paragraph)` (a structural fact, supplied by
the caller according to the paragraph's position).  `none` models the
paragraph being removed (the Python function then returns `True`);
`some p2` is the surviving paragraph (return value `False`). -/
def replace_in_runs (p : Para) (mapping : Mapping) (inCell : Bool) (allowDel : Bool) :
    Option Para :=
  if mapping = [] then some p
  else match replaceLoop mapping (paraText p) inCell allowDel with
    | none => none
    | some newText => some (rewriteResult p newText)

/-- Substitution on a table-cell paragraph (never removed: inside a cell
the deletion branch is unreachable). -/
def replaceCellPara (m : Mapping) (p : Para) : Para :=
  (replace_in_runs p m true true).getD p

/-- Substitution over every cell paragraph of a table. -/
def replaceTable (m : Mapping) (t : Table) : Table :=
  { rows := t.rows.map fun r =>
      { cells := r.cells.map fun c =>
          { paras := c.paras.map (replaceCellPara m) } } }

/-- The body substitution pass of `process_document`: every top-level
paragraph goes through `replace_in_runs` outside a table cell (and may be
removed); every table has its cell paragraphs substituted in place. -/
def replaceBody (body : List Block) (m : Mapping) : List Block :=
  body.filterMap fun b => match b with
    | .para p => (replace_in_runs p m false true).map .para
    | .table t => some (.table (replaceTable m t))

/-- The header substitution pass of `process_document`: header paragraphs
are outside table cells (removable), header-table cell paragraphs are
inside cells. -/
def replaceHeader (m : Mapping) (h : Header) : Header :=
  { paras := h.paras.filterMap (fun p => replace_in_runs p m false true),
    tables := h.tables.map (replaceTable m) }

/-- Substitution over every section header of the document. -/
def replaceHeadersDoc (doc : Doc) (m : Mapping) : Doc :=
  { doc with sections := doc.sections.map fun s => { header := replaceHeader m s.header } }

/-- `remove_empty_paragraphs`: delete every top-level body paragraph whose
text is empty or whitespace-only; table-cell paragraphs are never
deleted. -/
def remove_empty_paragraphs (body : List Block) : List Block :=
  body.filterMap fun b => match b with
    | .para p => if strip (paraText p) = [] then none else some (.para p)
    | .table t => some (.table t)

/-! ### Conditional section pruner (`remove_empty_sim_tables`) -/

/-- The digit character of `i` for `i` in `1..8`. -/
def digitChar (i : Nat) : Char := Char.ofNat (48 + i)

/-- Base of the key `\x7boperateur<i>\x7d`. -/
def litOperateurBase : Str := "\x7boperateur".data

/-- Base of the key `\x7biccid<i>\x7d`. -/
def litIccidBase : Str := "\x7biccid".data

/-- Base of the key `\x7bimsi<i>\x7d`. -/
def litImsiBase : Str := "\x7bimsi".data

/-- Base of the key `\x7bmsisdn<i>\x7d`. -/
def litMsisdnBase : Str := "\x7bmsisdn".data

/-- Base of the key `\x7bdatesync<i>\x7d`. -/
def litDatesyncBase : Str := "\x7bdatesync".data

/-- An indexed SIM key, e.g. `\x7boperateur3\x7d`. -/
def simKey (base : Str) (i : Nat) : Str := base ++ [digitChar i, rbrace]

/-- The fixed key family for index `i`:
`operateur_i, iccid_i, imsi_i, msisdn_i, datesync_i` (brace-wrapped). -/
def simKeys (i : Nat) : List Str :=
  [simKey litOperateurBase i, simKey litIccidBase i, simKey litImsiBase i,
   simKey litMsisdnBase i, simKey litDatesyncBase i]

/-- The first family index `i` in `1..8` such that some key of family `i`
occurs in the row text. -/
def findSimIndex (rt : Str) : Option Nat :=
  (List.range' 1 8).find? fun i => (simKeys i).any fun k => containsSub rt k

/-- The family index of a table: scan the rows in order and take the first
row that matches some family (the row scan in `remove_empty_sim_tables`,
with its two `break`s). -/
def tableSimIndex (t : Table) : Option Nat :=
  t.rows.findSome? fun r => findSimIndex (rowText r)

/-- `has_at_least_one_value`: some key of family `i` has a value in the
mapping that is non-empty after `strip` (`mapping.get(key, "").strip()`). -/
def familyHasValue (m : Mapping) (i : Nat) : Bool :=
  (simKeys i).any fun k => !(strip (mapGetD m k)).isEmpty

/-- Is the table marked for removal: it is a SIM table (matches a family)
and no key of its family carries a value. -/
def shouldRemoveSim (t : Table) (m : Mapping) : Bool :=
  match tableSimIndex t with
  | some i => !familyHasValue m i
  | none => false

/-- `remove_empty_sim_tables`: delete every top-level table marked for
removal (collect-then-remove in the source, i.e. a filter over the body;
the judgment uses the mapping, not the rendered text). -/
def remove_empty_sim_tables (body : List Block) (m : Mapping) : List Block :=
  body.filter fun b => match b with
    | .para _ => true
    | .table t => !shouldRemoveSim t m

/-! ### Heading decisions -/

/-- The sentinel `__KEEP_TITLE_ONLY__`. -/
def KEEP_TITLE_ONLY : Str := "__KEEP_TITLE_ONLY__".data

/-- The sentinel `__DEFAULT__` of the `generate` endpoint. -/
def DEFAULT_SENTINEL : Str := "__DEFAULT__".data

/-- `DEFAULT_ANALYSIS_TEMPLATE` (the empty string in the source). -/
def DEFAULT_ANALYSIS_TEMPLATE : Str := []

/-- The default style name of a freshly inserted paragraph. -/
def litNormal : Str := "Normal".data

/-- `fill_with_mapping(text, mapping)`: apply every replacement of the
mapping, in insertion order. -/
def fill_with_mapping (text : Str) (mapping : Mapping) : Str :=
  mapping.foldl (fun out kv => strReplace out kv.1 kv.2) text

/-- `default_heading_decisions`: one default phrase (the filled template)
per heading. -/
def default_heading_decisions (headings : List Para) (mapping : Mapping) : List Str :=
  headings.map fun _ => fill_with_mapping DEFAULT_ANALYSIS_TEMPLATE mapping

/-- The paragraph built by `insert_after(blk, decision, style=None)`:
default style, one run with the decision text. -/
def mkDecisionPara (d : Str) : Para := { runs := [Run.txt d], style := litNormal }

/-- Is a block a heading paragraph
(`isinstance(blk, Paragraph) and is_heading(blk)`)? -/
def headingBlock : Block → Bool
  | .para p => is_heading p
  | .table _ => false

/-- Is a block a paragraph? -/
def isParaBlock : Block → Bool
  | .para _ => true
  | .table _ => false

/-- The walk of `apply_heading_decisions` over the snapshot of body
blocks, with a mode flag: `false` is the normal walk (every block kept),
`true` is the deletion scan entered after an empty decision (tables
removed, non-heading paragraphs left in place).  At a heading paragraph
(in either mode — the deletion scan stops at the next heading, which the
outer loop then processes), `decisions[heading_idx]` is read (`none`
models the `IndexError` when it is out of bounds); the keep-only
sentinel keeps the heading unchanged, an empty decision removes the
heading and enters the deletion scan, and any other decision inserts a
new default-styled paragraph carrying the decision right after the
heading. -/
def applyHDm : Bool → List Block → List Str → Nat → Option (List Block)
  | _, [], _, _ => some []
  | false, .table t :: rest, ds, h => (applyHDm false rest ds h).map (.table t :: ·)
  | true, .table _ :: rest, ds, h => applyHDm true rest ds h
  | mode, .para p :: rest, ds, h =>
    if is_heading p then
      match ds[h]? with
      | none => none
      | some d =>
        if d = KEEP_TITLE_ONLY then (applyHDm false rest ds (h + 1)).map (.para p :: ·)
        else if d = [] then applyHDm true rest ds (h + 1)
        else (applyHDm false rest ds (h + 1)).map
          (fun r => .para p :: .para (mkDecisionPara d) :: r)
    else (applyHDm mode rest ds h).map (.para p :: ·)

/-- `apply_heading_decisions(doc, decisions)` on the body blocks. -/
def apply_heading_decisions (blocks : List Block) (decisions : List Str) :
    Option (List Block) :=
  applyHDm false blocks decisions 0

/-! ### Inline image markers (`apply_images_at_markers`) -/

/-- Generic association-list lookup (Python `dict.get`). -/
def assocGet {α : Type} : List (Str × α) → Str → Option α
  | [], _ => none
  | (k, v) :: rest, key => if k = key then some v else assocGet rest key

/-- The literal `[[`. -/
def litDblBracket : Str := "[[".data

/-- The literal `IMG`. -/
def litIMG : Str := "IMG".data

/-- The literal `[[IMG` of the fast pre-check. -/
def litIMGPre : Str := "[[IMG".data

/-- Drop a literal prefix, or fail. -/
def dropLit : Str → Str → Option Str
  | [], s => some s
  | _ :: _, [] => none
  | c :: cs, d :: ds => if c = d then dropLit cs ds else none

/-- Match the regex `IMAGE_MARKER` at the start of `s`: double bracket,
optional whitespace, `IMG`, optional whitespace, colon, optional
whitespace, a non-empty run of non-bracket characters (the lazy group,
whose trailing whitespace is absorbed by the following whitespace class),
then the closing double bracket.  Returns the captured key text and the
remainder of the string. -/
def matchMarkerAt (s : Str) : Option (Str × Str) :=
  match dropLit litDblBracket s with
  | none => none
  | some s1 =>
    match dropLit litIMG (s1.dropWhile isWS) with
    | none => none
    | some s3 =>
      match s3.dropWhile isWS with
      | ':' :: s5 =>
        match (s5.dropWhile isWS).takeWhile (fun c => !(c == ']')),
              (s5.dropWhile isWS).dropWhile (fun c => !(c == ']')) with
        | [], _ => none
        | _ :: _, ']' :: ']' :: s7 =>
          some (rstrip ((s5.dropWhile isWS).takeWhile (fun c => !(c == ']'))), s7)
        | _ :: _, _ => none
      | _ => none

/-- The scan of `re.split(IMAGE_MARKER, text)`, producing the alternating
list of literal text chunks (even positions) and captured keys (odd
positions); `acc` holds the reversed pending literal chunk.  The fuel
argument keeps the recursion structural; a successful marker match
consumes at least one character (it starts with a double bracket), so
fuel equal to the string length never runs out and the fallback second
equation is unreachable. -/
def splitMarkersF : Nat → Str → Str → List Str
  | _, acc, [] => [acc.reverse]
  | 0, acc, s => [acc.reverse ++ s]
  | fuel + 1, acc, c :: rest =>
    match matchMarkerAt (c :: rest) with
    | some (cap, s2) => acc.reverse :: cap :: splitMarkersF fuel [] s2
    | none => splitMarkersF fuel (c :: acc) rest

/-- `re.split(IMAGE_MARKER, text)`. -/
def splitMarkers (acc : Str) (s : Str) : List Str := splitMarkersF s.length acc s

/-- `image_texts` entry: optional text before or after an image. -/
structure ImageText where
  before : Str
  after : Str
  position : Str
  deriving DecidableEq

/-- The literal `before`. -/
def litBefore : Str := "before".data

/-- The literal `after`. -/
def litAfter : Str := "after".data

/-- The literal `[[IMG:`. -/
def litIMGColon : Str := "[[IMG:".data

/-- The literal `]]`. -/
def litClose : Str := "]]".data

/-- The literal ` - INTROUVABLE]]`. -/
def litIntrouvable : Str := " - INTROUVABLE]]".data

/-- The re-emitted literal marker for an unresolved key. -/
def mkLiteralMarker (key : Str) : Str := litIMGColon ++ key ++ litClose

/-- The annotation emitted when the mapped image file does not exist. -/
def mkIntrouvable (key : Str) : Str := litIMGColon ++ key ++ litIntrouvable

/-- Rebuild the runs of a paragraph from the regex-split parts; the flag
is true on a captured-key part.  Text chunks are re-emitted when
non-empty; a key is stripped and looked up: missing key re-emits the
literal marker, a missing file emits the INTROUVABLE annotation, and
otherwise the image is embedded with its optional surrounding texts. -/
def buildMarkerRuns (fsx : Str → Bool) (markers : Mapping)
    (texts : List (Str × ImageText)) : List Str → Bool → List Run
  | [], _ => []
  | chunk :: rest, false =>
    (if chunk.isEmpty then [] else [Run.txt chunk]) ++
      buildMarkerRuns fsx markers texts rest true
  | chunk :: rest, true =>
    (match mapGet markers (strip chunk) with
     | none => [Run.txt (mkLiteralMarker (strip chunk))]
     | some path =>
       if !fsx path then [Run.txt (mkIntrouvable (strip chunk))]
       else
         (match assocGet texts (strip chunk) with
          | some td =>
            (if td.position = litBefore && !td.before.isEmpty
             then [Run.txt (td.before ++ [' '])] else []) ++
            [Run.img path] ++
            (if td.position = litAfter && !td.after.isEmpty
             then [Run.txt (' ' :: td.after)] else [])
          | none => [Run.img path])) ++
      buildMarkerRuns fsx markers texts rest false

/-- `apply_images_at_markers` on one paragraph: skip unless the quick
`[[IMG` check matches, else clear every run and rebuild from the split
parts. -/
def applyMarkersPara (fsx : Str → Bool) (markers : Mapping)
    (texts : List (Str × ImageText)) (p : Para) : Para :=
  let full := (p.runs.map Run.text).flatten
  if containsSub full litIMGPre = false then p
  else { p with runs := clearedRuns p.runs ++
          buildMarkerRuns fsx markers texts (splitMarkers [] full) false }

/-- `apply_images_at_markers` on a table (cell paragraphs). -/
def applyMarkersTable (fsx : Str → Bool) (markers : Mapping)
    (texts : List (Str × ImageText)) (t : Table) : Table :=
  { rows := t.rows.map fun r =>
      { cells := r.cells.map fun c =>
          { paras := c.paras.map (applyMarkersPara fsx markers texts) } } }

/-- `apply_images_at_markers(doc, ...)`: no-op on an empty marker map,
otherwise rewrite every paragraph reached by `iter_all_paragraphs`. -/
def apply_images_at_markers (fsx : Str → Bool) (markers : Mapping)
    (texts : List (Str × ImageText)) (body : List Block) : List Block :=
  if markers = [] then body
  else body.map fun b => match b with
    | .para p => .para (applyMarkersPara fsx markers texts p)
    | .table t => .table (applyMarkersTable fsx markers texts t)

/-! ### Heading content blocks (`apply_heading_content_blocks`) -/

/-- A content block of the `generate` payload (`type` is `text` or
`image`; widths are formatting only and are not modeled). -/
structure CBlock where
  ctype : Str
  content : Str
  src : Str
  deriving DecidableEq

/-- The literal `text`. -/
def litText : Str := "text".data

/-- The literal `image`. -/
def litImage : Str := "image".data

/-- The paragraphs inserted for a list of content blocks, in order: a
text block becomes one paragraph with its content (skipped when empty),
an image block becomes one paragraph with an empty run and the picture
(skipped when the source path is empty or the file does not exist). -/
def contentParas (fsx : Str → Bool) : List CBlock → List Block
  | [] => []
  | b :: rest =>
    (if b.ctype = litText then
       (if b.content.isEmpty then []
        else [Block.para { runs := [Run.txt b.content], style := litNormal }])
     else if b.ctype = litImage then
       (if !b.src.isEmpty && fsx b.src then
          [Block.para { runs := [Run.txt [], Run.img b.src], style := litNormal }]
        else [])
     else []) ++ contentParas fsx rest

/-- Split a block list at its first paragraph: the leading tables, and
the paragraph with the remaining blocks when present. -/
def splitAtNextPara : List Block → List Block × Option (Para × List Block)
  | [] => ([], none)
  | .table t :: rest =>
    let r := splitAtNextPara rest
    (.table t :: r.1, r.2)
  | .para q :: rest => ([], some (q, rest))

/-- The walk of `apply_heading_content_blocks` over the body: at a
heading whose stripped text owns a non-empty block list, insert the
generated paragraphs after the next top-level paragraph when it exists
and is not itself a heading (the auto-phrase slot), otherwise right
after the heading itself.  The fuel keeps the recursion structural; the
continuation after an insertion is a strict suffix, so fuel equal to the
block count never runs out and the fallback second equation is
unreachable. -/
def applyHCBF (hc : List (Str × List CBlock)) (fsx : Str → Bool) :
    Nat → List Block → List Block
  | _, [] => []
  | 0, blocks => blocks
  | fuel + 1, .table t :: rest => .table t :: applyHCBF hc fsx fuel rest
  | fuel + 1, .para p :: rest =>
    if is_heading p ∧ ((assocGet hc (strip (paraText p))).getD []) ≠ [] then
      let nps := contentParas fsx ((assocGet hc (strip (paraText p))).getD [])
      match splitAtNextPara rest with
      | (tbls, some (q, rest2)) =>
        if is_heading q then .para p :: nps ++ applyHCBF hc fsx fuel rest
        else .para p :: tbls ++ .para q :: nps ++ applyHCBF hc fsx fuel rest2
      | (_, none) => .para p :: nps ++ applyHCBF hc fsx fuel rest
    else .para p :: applyHCBF hc fsx fuel rest

/-- `apply_heading_content_blocks(doc, heading_content, ...)`. -/
def apply_heading_content_blocks (hc : List (Str × List CBlock)) (fsx : Str → Bool)
    (blocks : List Block) : List Block :=
  applyHCBF hc fsx blocks.length blocks

/-! ### The pipeline (`process_document`) and the endpoint (`generate`) -/

/-- `process_document` with a mapping override and a decisions override
(the non-interactive path used by the `generate` endpoint): substitute in
the headers, prune empty SIM tables (judged on the mapping, before body
substitution), substitute in the body, drop empty paragraphs, apply the
heading decisions (`none` when that raises), drop empty paragraphs again,
then insert heading content blocks and marker images.  Saving the file is
the caller's last step. -/
def process_document (doc : Doc) (mapping : Mapping) (decisions : List Str)
    (heading_content : List (Str × List CBlock)) (images_at_markers : Mapping)
    (fsx : Str → Bool) : Option Doc :=
  let doc1 := replaceHeadersDoc doc mapping
  let body1 := remove_empty_sim_tables doc1.body mapping
  let body2 := remove_empty_paragraphs (replaceBody body1 mapping)
  match apply_heading_decisions body2 decisions with
  | none => none
  | some body3 =>
    let body4 := remove_empty_paragraphs body3
    let body5 := if heading_content.isEmpty then body4
                 else apply_heading_content_blocks heading_content fsx body4
    let body6 := if images_at_markers.isEmpty then body5
                 else apply_images_at_markers fsx images_at_markers [] body5
    some { doc1 with body := body6 }

/-- `mapping.setdefault(missing, "")` for every scanned placeholder:
missing keys are appended with an empty value, in scan order. -/
def setdefaults (m : Mapping) (phs : List Str) : Mapping :=
  phs.foldl (fun acc ph => if (mapGet acc ph).isSome then acc else acc ++ [(ph, [])]) m

/-- The decisions resolution of the `generate` endpoint: `none` (payload
without a decisions list) yields the defaults; an explicit list is read
positionally, the `__DEFAULT__` sentinel and the positions beyond the
list resolve to the computed default for that position, anything else is
taken literally. -/
def resolveDecisions (headings : List Para) (m : Mapping) (dsOpt : Option (List Str)) :
    List Str :=
  match dsOpt with
  | none => default_heading_decisions headings m
  | some ds =>
    let defaults := default_heading_decisions headings m
    (List.range headings.length).map fun i =>
      let choice := ds[i]?.getD DEFAULT_SENTINEL
      if choice = DEFAULT_SENTINEL then defaults.getD i [] else choice

/-- The `generate` endpoint acting on the stored output file: with
`overwrite` the previous output is deleted up front; the mapping is
completed with empty defaults for every scanned placeholder; the
decisions are resolved against the source document's headings; then the
pipeline runs and its result is saved.  `envFail` models an exception
raised by the environment after the overwrite deletion and before the
save (the claim's "exception mid-pipeline"); the second component is
whether generation completed. -/
def generate (src : Doc) (overwrite : Bool) (mapping0 : Mapping)
    (dsOpt : Option (List Str)) (heading_content : List (Str × List CBlock))
    (images_at_markers : Mapping) (fsx : Str → Bool) (envFail : Bool)
    (prev : Option Doc) : Option Doc × Bool :=
  let prev1 := if overwrite then none else prev
  let m := setdefaults mapping0 (find_placeholders_in_order src)
  let headings := collect_headings_in_order src
  let ds := resolveDecisions headings m dsOpt
  if envFail then (prev1, false)
  else
    match process_document src m ds heading_content images_at_markers fsx with
    | none => (prev1, false)
    | some out => (some out, true)

/-! ### Lemmas about the substitution loop -/

/-- Unfolding of `containsSub` on a cons cell. -/
theorem containsSub_cons (c : Char) (rest pat : Str) :
    containsSub (c :: rest) pat = (isPrefixOfB pat (c :: rest) || containsSub rest pat) := rfl

/-- When the pattern does not occur, the replacement scan is the identity. -/
theorem replaceGo_of_not_contains {a : Char} {as rep : Str} :
    ∀ {s}, containsSub s (a :: as) = false → replaceGo (a :: as) rep 0 s = s := by
  intro s
  induction s with
  | nil => intro _; rfl
  | cons c rest ih =>
    intro h
    rw [containsSub_cons, Bool.or_eq_false_iff] at h
    unfold replaceGo
    rw [if_neg (by simp [h.1])]
    rw [ih h.2]

/-- Python `s.replace(pat, rep) == s` when `pat not in s`. -/
theorem strReplace_of_not_contains {s pat rep : Str} (h : containsSub s pat = false) :
    strReplace s pat rep = s := by
  cases pat with
  | nil => cases s <;> simp [containsSub, isPrefixOfB] at h
  | cons a as => exact replaceGo_of_not_contains h

/-- `fill_with_mapping` on an empty mapping. -/
theorem fill_with_mapping_nil (t : Str) : fill_with_mapping t [] = t := rfl

/-- `fill_with_mapping` on a cons cell. -/
theorem fill_with_mapping_cons (t k v : Str) (m : Mapping) :
    fill_with_mapping t ((k, v) :: m) = fill_with_mapping (strReplace t k v) m := rfl

/-- Does some mapping entry carry an empty value whose key occurs in `t`? -/
def hasEmptyHit (m : Mapping) (t : Str) : Bool :=
  m.any fun kv => kv.2.isEmpty && containsSub t kv.1

/-- Non-interference of a mapping run with respect to the original text
`t`: walking the mapping in insertion order from the current text `cur`,
each key occurs in the current text exactly when it occurs in `t`
(earlier replacements neither create nor destroy later keys).  This
holds in particular for ordinary placeholder mappings, whose
brace-wrapped keys cannot overlap and whose values contain no braces. -/
def nonInterfering (t : Str) : Str → Mapping → Bool
  | _, [] => true
  | cur, (k, v) :: rest =>
    (containsSub cur k == containsSub t k) && nonInterfering t (strReplace cur k v) rest

/-- Outside a table cell, the loop of `replace_in_runs` signals removal
as soon as it reaches an empty-valued key still present in the text. -/
theorem replaceLoop_none_of_emptyHit {t : Str} (m : Mapping) :
    ∀ cur, nonInterfering t cur m = true → hasEmptyHit m t = true →
      replaceLoop m cur false true = none := by
  induction m with
  | nil => intro cur _ hhit; simp [hasEmptyHit] at hhit
  | cons kv rest ih =>
    obtain ⟨k, v⟩ := kv
    intro cur hni hhit
    simp only [nonInterfering, Bool.and_eq_true, beq_iff_eq] at hni
    obtain ⟨hpres, hni2⟩ := hni
    simp only [hasEmptyHit, List.any_cons, Bool.or_eq_true, Bool.and_eq_true,
      List.isEmpty_iff] at hhit
    unfold replaceLoop
    by_cases hc : containsSub cur k = false
    · rw [if_pos hc]
      rw [strReplace_of_not_contains hc] at hni2
      refine ih cur hni2 ?_
      rcases hhit with ⟨_, hk⟩ | hrest
      · rw [hpres, hk] at hc; exact absurd hc (by simp)
      · simpa [hasEmptyHit] using hrest
    · rw [if_neg hc]
      by_cases hv : v = []
      · subst hv
        rw [if_pos rfl]
        simp
      · rw [if_neg hv]
        refine ih (strReplace cur k v) hni2 ?_
        rcases hhit with ⟨hv0, _⟩ | hrest
        · exact absurd hv0 hv
        · simpa [hasEmptyHit] using hrest

/-- When no removal is triggered (inside a table cell, or no
empty-valued key still occurs), the loop of `replace_in_runs` completes
and returns the text with every mapping replacement applied in order. -/
theorem replaceLoop_some_fill {t : Str} (m : Mapping) :
    ∀ cur (inCell : Bool), nonInterfering t cur m = true →
      (inCell = true ∨ hasEmptyHit m t = false) →
      replaceLoop m cur inCell true = some (fill_with_mapping cur m) := by
  induction m with
  | nil => intro cur inCell _ _; rfl
  | cons kv rest ih =>
    obtain ⟨k, v⟩ := kv
    intro cur inCell hni hsafe
    simp only [nonInterfering, Bool.and_eq_true, beq_iff_eq] at hni
    obtain ⟨hpres, hni2⟩ := hni
    have hsafe2 : inCell = true ∨ hasEmptyHit rest t = false := by
      rcases hsafe with h | h
      · exact Or.inl h
      · refine Or.inr ?_
        simp only [hasEmptyHit, List.any_cons, Bool.or_eq_false_iff] at h
        simpa [hasEmptyHit] using h.2
    unfold replaceLoop
    by_cases hc : containsSub cur k = false
    · rw [if_pos hc]
      have hrw : strReplace cur k v = cur := strReplace_of_not_contains hc
      rw [hrw] at hni2
      rw [fill_with_mapping_cons, hrw]
      exact ih cur inCell hni2 hsafe2
    · rw [if_neg hc]
      by_cases hv : v = []
      · subst hv
        rw [if_pos rfl]
        have hcell : inCell = true := by
          rcases hsafe with h | h
          · exact h
          · exfalso
            have hct : containsSub t k = true := by
              rw [← hpres]
              cases hcc : containsSub cur k
              · exact absurd hcc hc
              · rfl
            simp [hasEmptyHit, hct] at h
        subst hcell
        rw [if_neg (by simp)]
        rw [fill_with_mapping_cons]
        exact ih (strReplace cur k []) true hni2 hsafe2
      · rw [if_neg hv]
        rw [fill_with_mapping_cons]
        exact ih (strReplace cur k v) inCell hni2 hsafe2

/-! ### Claim C1 -/

/-- A paragraph with the single run `ab`, outside any table. -/
def exC1para : Para := { runs := [Run.txt ("ab".data)], style := litNormal }

/-- The mapping `ab -> X, b -> ""` in insertion order. -/
def exC1map : Mapping := [("ab".data, "X".data), ("b".data, [])]

/-- C1, counterexample to the claim as stated: the paragraph text `ab`
contains the mapped key `b`, whose value is empty, and the paragraph is
not inside a table cell; yet `replace_in_runs` does not delete the
paragraph, because the earlier mapping entry `ab -> X` rewrites the text
to `X` before the key `b` is examined. -/
theorem C1_counterexample :
    mapGet exC1map ("b".data) = some [] ∧
    containsSub (paraText exC1para) ("b".data) = true ∧
    replace_in_runs exC1para exC1map false true ≠ none := by
  refine ⟨by decide, by decide, by decide⟩

/-- C1 (amended): assuming the mapping is non-interfering on the
paragraph text (keys are examined in insertion order against the
progressively rewritten text; non-interference means earlier
replacements neither create nor destroy later keys, which holds for
ordinary brace-wrapped placeholders), `replace_in_runs` behaves as
follows.  Outside a table cell, if some empty-valued key occurs in the
text, the paragraph is deleted (the Python function returns `True`).
Inside a table cell, or when no empty-valued key occurs, the paragraph
survives: every occurrence of every present key is replaced in mapping
order (empty values replace in place inside cells), and the runs are
rewritten — each original run emptied plus one appended run carrying the
whole new text — exactly when the final text differs from the original;
an unchanged text leaves the runs untouched. -/
theorem C1_amended (m : Mapping) (p : Para) (c : Bool)
    (hni : nonInterfering (paraText p) (paraText p) m = true) :
    (c = false → hasEmptyHit m (paraText p) = true →
      replace_in_runs p m c true = none) ∧
    ((c = true ∨ hasEmptyHit m (paraText p) = false) →
      replace_in_runs p m c true =
        some (rewriteResult p (fill_with_mapping (paraText p) m))) := by
  constructor
  · intro hc hhit
    subst hc
    unfold replace_in_runs
    rw [if_neg (by rintro rfl; simp [hasEmptyHit] at hhit)]
    rw [replaceLoop_none_of_emptyHit m (paraText p) hni hhit]
  · intro hsafe
    unfold replace_in_runs
    by_cases hm : m = []
    · subst hm
      rw [if_pos rfl]
      simp [rewriteResult, fill_with_mapping_nil]
    · rw [if_neg hm]
      rw [replaceLoop_some_fill m (paraText p) c hni hsafe]

/-- C1, witness: a paragraph `x(a)y` with the placeholder `a` mapped to
the empty value, outside a table cell, is deleted. -/
def exC1Wpara : Para := { runs := [Run.txt ("x\x7ba\x7dy".data)], style := litNormal }

/-- The witness mapping sending the placeholder to the empty string. -/
def exC1Wmap : Mapping := [("\x7ba\x7d".data, [])]

/-- C1, witness: the amended theorem applied at a concrete input. -/
theorem C1_witness : replace_in_runs exC1Wpara exC1Wmap false true = none :=
  (C1_amended exC1Wmap exC1Wpara false (by decide)).1 rfl (by decide)

/-! ### Claim C10 -/

/-- C10 (amended): outside a table cell, under non-interference, when the
paragraph text contains both an empty-valued mapped key and other
non-empty-valued mapped keys, deletion takes precedence: the whole
paragraph is removed (so the non-empty replacements are lost with it and
no rewritten paragraph is produced). -/
theorem C10_theorem (m : Mapping) (p : Para)
    (hni : nonInterfering (paraText p) (paraText p) m = true)
    (hhit : hasEmptyHit m (paraText p) = true)
    (hothers : ∃ kv ∈ m, kv.2 ≠ [] ∧ containsSub (paraText p) kv.1 = true) :
    replace_in_runs p m false true = none := by
  unfold replace_in_runs
  rw [if_neg (by rintro rfl; simp [hasEmptyHit] at hhit)]
  rw [replaceLoop_none_of_emptyHit m (paraText p) hni hhit]

/-- A paragraph carrying two placeholders. -/
def exC10Wpara : Para :=
  { runs := [Run.txt ("\x7ba\x7d \x7bb\x7d".data)], style := litNormal }

/-- A mapping with one empty and one non-empty value. -/
def exC10Wmap : Mapping := [("\x7ba\x7d".data, []), ("\x7bb\x7d".data, "V".data)]

/-- C10, witness: the theorem applied at a concrete input. -/
theorem C10_witness : replace_in_runs exC10Wpara exC10Wmap false true = none :=
  C10_theorem exC10Wmap exC10Wpara (by decide) (by decide)
    ⟨(("\x7bb\x7d".data, "V".data)), by decide, by decide, by decide⟩

/-- A paragraph with the single run `xy`. -/
def exC10para : Para := { runs := [Run.txt ("xy".data)], style := litNormal }

/-- The mapping `xy -> Q, y -> ""`. -/
def exC10map : Mapping := [("xy".data, "Q".data), ("y".data, [])]

/-- C10, counterexample to the claim as stated: the text `xy` contains
several mapped keys (`xy` with a non-empty value and `y` with an empty
value) and lies outside any table cell, yet the paragraph is not
deleted: the earlier entry `xy -> Q` consumes the occurrence of `y`
before the empty value is examined. -/
theorem C10_counterexample :
    mapGet exC10map ("y".data) = some [] ∧
    mapGet exC10map ("xy".data) = some ("Q".data) ∧
    containsSub (paraText exC10para) ("y".data) = true ∧
    containsSub (paraText exC10para) ("xy".data) = true ∧
    replace_in_runs exC10para exC10map false true ≠ none := by
  refine ⟨by decide, by decide, by decide, by decide, by decide⟩

/-! ### Claims C3 and C9: the heading-decision applicator -/

/-- In the deletion scan entered after an empty decision, a span of
non-heading blocks loses its tables and keeps its paragraphs, and the
walk resumes in normal mode at the next heading (or at the end). -/
theorem applyHDm_skip_span (ds : List Str) (h : Nat) :
    ∀ (span tail : List Block), (∀ b ∈ span, headingBlock b = false) →
      (tail = [] ∨ ∃ q t', tail = .para q :: t' ∧ is_heading q = true) →
      applyHDm true (span ++ tail) ds h =
        (applyHDm false tail ds h).map (fun r => span.filter isParaBlock ++ r) := by
  intro span
  induction span with
  | nil =>
    intro tail _ htail
    rcases htail with rfl | ⟨q, t', rfl, hq⟩
    · simp [applyHDm]
    · simp [applyHDm, hq]
  | cons b span' ih =>
    intro tail hnh htail
    have hb := hnh b (List.mem_cons_self b span')
    have hrest : ∀ x ∈ span', headingBlock x = false :=
      fun x hx => hnh x (List.mem_cons_of_mem _ hx)
    cases b with
    | table t =>
      simp only [List.cons_append, applyHDm, List.append_eq]
      rw [ih tail hrest htail]
      simp [isParaBlock]
    | para p =>
      have hp : is_heading p = false := by simpa [headingBlock] using hb
      simp only [List.cons_append, applyHDm, hp, Bool.false_eq_true, if_false,
        List.append_eq]
      rw [ih tail hrest htail]
      cases applyHDm false tail ds h <;> simp [isParaBlock]

/-- C3: at a heading, its decision drives the walk as follows: the
keep-only sentinel makes no structural change (the heading is kept and
the walk continues); a non-empty, non-sentinel decision keeps the
heading and inserts a new paragraph carrying exactly the decision string
immediately after it; an empty decision deletes the heading paragraph
and every table between it and the next heading, while non-heading
paragraphs in that span are left in place, the walk resuming at the next
heading with the next decision index. -/
theorem C3_theorem (ds : List Str) (h : Nat) (d : Str) (hp : Para) (rest : List Block)
    (hhp : is_heading hp = true) (hd : ds[h]? = some d) :
    (d = KEEP_TITLE_ONLY →
      applyHDm false (.para hp :: rest) ds h =
        (applyHDm false rest ds (h + 1)).map (.para hp :: ·)) ∧
    (d ≠ KEEP_TITLE_ONLY → d ≠ [] →
      applyHDm false (.para hp :: rest) ds h =
        (applyHDm false rest ds (h + 1)).map
          (fun r => .para hp :: .para (mkDecisionPara d) :: r)) ∧
    (d = [] → ∀ span tail, rest = span ++ tail →
      (∀ b ∈ span, headingBlock b = false) →
      (tail = [] ∨ ∃ q t', tail = .para q :: t' ∧ is_heading q = true) →
      applyHDm false (.para hp :: rest) ds h =
        (applyHDm false tail ds (h + 1)).map (fun r => span.filter isParaBlock ++ r)) := by
  refine ⟨?_, ?_, ?_⟩
  · intro hk
    simp [applyHDm, hhp, hd, hk]
  · intro hk hne
    simp [applyHDm, hhp, hd, hk, hne]
  · rintro rfl span tail rfl hspan htail
    simp only [applyHDm, hhp, if_true, hd]
    exact applyHDm_skip_span ds (h + 1) span tail hspan htail

/-- A concrete heading paragraph for the C3 witness. -/
def exC3h1 : Para := { runs := [Run.txt ("T1".data)], style := "Heading 1".data }

/-- A second concrete heading paragraph. -/
def exC3h2 : Para := { runs := [Run.txt ("T2".data)], style := "Heading 1".data }

/-- A concrete non-heading paragraph. -/
def exC3np : Para := { runs := [Run.txt ("p".data)], style := litNormal }

/-- A concrete table. -/
def exC3tbl : Table := { rows := [ { cells := [ { paras := [exC3np] } ] } ] }

/-- The C3 witness decisions: delete the first heading, then a phrase. -/
def exC3ds : List Str := [[], "ph".data]

/-- C3, witness: the theorem applied at a concrete document slice, empty
decision case: the heading and the two tables disappear, the plain
paragraph stays, the walk resumes at the second heading. -/
theorem C3_witness :
    applyHDm false
      [.para exC3h1, .table exC3tbl, .para exC3np, .table exC3tbl, .para exC3h2]
      exC3ds 0 =
    (applyHDm false [.para exC3h2] exC3ds 1).map
      (fun r => List.filter isParaBlock
        [.table exC3tbl, .para exC3np, .table exC3tbl] ++ r) :=
  (C3_theorem exC3ds 0 [] exC3h1
      [.table exC3tbl, .para exC3np, .table exC3tbl, .para exC3h2]
      (by decide) (by decide)).2.2 rfl
    [.table exC3tbl, .para exC3np, .table exC3tbl] [.para exC3h2] rfl
    (by decide) (Or.inr ⟨exC3h2, [], rfl, by decide⟩)

/-- The number of decisions consumed by the walk is the number of heading
blocks; the walk completes exactly when, starting at index `h`, the
decisions list covers them (or there are none). -/
theorem applyHDm_isSome (ds : List Str) :
    ∀ (blocks : List Block) (mode : Bool) (h : Nat),
      (applyHDm mode blocks ds h).isSome = true ↔
        (blocks.countP headingBlock = 0 ∨
          h + blocks.countP headingBlock ≤ ds.length) := by
  intro blocks
  induction blocks with
  | nil => intro mode h; simp [applyHDm]
  | cons b rest ih =>
    intro mode h
    cases b with
    | table t =>
      have hcount : (Block.table t :: rest).countP headingBlock =
          rest.countP headingBlock := by
        simp [List.countP_cons, headingBlock]
      rw [hcount]
      cases mode
      · simpa [applyHDm] using ih false h
      · simpa [applyHDm] using ih true h
    | para p =>
      by_cases hp : is_heading p = true
      · have hcount : (Block.para p :: rest).countP headingBlock =
            rest.countP headingBlock + 1 := by
          simp [List.countP_cons, headingBlock, hp]
        rw [hcount]
        cases hds : ds[h]? with
        | none =>
          have hlen : ds.length ≤ h := by
            by_contra hlt
            rw [List.getElem?_eq_getElem (by omega)] at hds
            exact absurd hds (by simp)
          simp only [applyHDm, hp, if_true, hds]
          simp only [Option.isSome_none, Bool.false_eq_true, false_iff]
          omega
        | some d =>
          have hlt : h < ds.length := by
            by_contra hge
            rw [List.getElem?_eq_none (by omega)] at hds
            exact absurd hds (by simp)
          simp only [applyHDm, hp, if_true, hds]
          have htail : ∀ mo : Bool, (applyHDm mo rest ds (h + 1)).isSome = true ↔
              (rest.countP headingBlock = 0 ∨
                h + 1 + rest.countP headingBlock ≤ ds.length) :=
            fun mo => ih mo (h + 1)
          by_cases hk : d = KEEP_TITLE_ONLY
          · rw [if_pos hk]
            rw [Option.isSome_map']
            rw [htail false]
            constructor
            · rintro (h0 | h0) <;> omega
            · intro h0; omega
          · rw [if_neg hk]
            by_cases hdnil : d = []
            · rw [if_pos hdnil]
              rw [htail true]
              constructor
              · rintro (h0 | h0) <;> omega
              · intro h0; omega
            · rw [if_neg hdnil]
              rw [Option.isSome_map']
              rw [htail false]
              constructor
              · rintro (h0 | h0) <;> omega
              · intro h0; omega
      · have hcount : (Block.para p :: rest).countP headingBlock =
            rest.countP headingBlock := by
          simp [List.countP_cons, headingBlock, hp]
        rw [hcount]
        have hp' : is_heading p = false := by simpa using hp
        simp only [applyHDm, hp', Bool.false_eq_true, if_false, Option.isSome_map']
        exact ih mode h

/-- C9: the applicator indexes the decisions list without a bounds
check: the walk over the body blocks succeeds exactly when the decisions
list has at least one entry per heading-styled top-level paragraph
block; with fewer entries it fails (the model's `none`, the Python
`IndexError` raised at the first uncovered heading). -/
theorem C9_theorem (blocks : List Block) (ds : List Str) :
    (apply_heading_decisions blocks ds).isSome = true ↔
      blocks.countP headingBlock ≤ ds.length := by
  unfold apply_heading_decisions
  rw [applyHDm_isSome]
  constructor
  · rintro (h0 | h0) <;> omega
  · intro h0; right; omega

/-- C9, witness: with two headings and two decisions the walk succeeds
(and with one decision it fails, by the counterpositive of the same
equivalence). -/
theorem C9_witness :
    (apply_heading_decisions [.para exC3h1, .table exC3tbl, .para exC3h2]
        ["a".data, "b".data]).isSome = true ∧
    ¬ (apply_heading_decisions [.para exC3h1, .table exC3tbl, .para exC3h2]
        ["a".data]).isSome = true :=
  ⟨(C9_theorem [.para exC3h1, .table exC3tbl, .para exC3h2]
      (["a".data, "b".data])).mpr (by decide),
   fun hs => absurd ((C9_theorem [.para exC3h1, .table exC3tbl, .para exC3h2]
      (["a".data])).mp hs) (by decide)⟩

/-! ### Claim C4: the placeholder scanner -/

/-- First-occurrence deduplication yields a subsequence of its input. -/
theorem dedupFirst_sublist (seen : List Str) : ∀ l, List.Sublist (dedupFirst seen l) l := by
  intro l
  induction l generalizing seen with
  | nil => exact List.Sublist.refl []
  | cons x rest ih =>
    unfold dedupFirst
    by_cases hx : x ∈ seen
    · rw [if_pos hx]
      exact (ih seen).cons x
    · rw [if_neg hx]
      exact (ih (x :: seen)).cons₂ x

/-- Membership after first-occurrence deduplication: the elements of the
input not yet seen. -/
theorem dedupFirst_mem (x : Str) : ∀ (l : List Str) (seen : List Str),
    x ∈ dedupFirst seen l ↔ x ∈ l ∧ x ∉ seen := by
  intro l
  induction l with
  | nil => intro seen; simp [dedupFirst]
  | cons y rest ih =>
    intro seen
    unfold dedupFirst
    by_cases hy : y ∈ seen
    · rw [if_pos hy, ih seen]
      constructor
      · rintro ⟨h1, h2⟩
        exact ⟨List.mem_cons_of_mem _ h1, h2⟩
      · rintro ⟨h1, h2⟩
        rcases List.mem_cons.mp h1 with rfl | h1
        · exact absurd hy h2
        · exact ⟨h1, h2⟩
    · rw [if_neg hy]
      constructor
      · intro hmem
        rcases List.mem_cons.mp hmem with rfl | hmem2
        · exact ⟨List.mem_cons_self x rest, hy⟩
        · obtain ⟨h1, h2⟩ := (ih (y :: seen)).mp hmem2
          exact ⟨List.mem_cons_of_mem _ h1, fun hs => h2 (List.mem_cons_of_mem _ hs)⟩
      · rintro ⟨h1, h2⟩
        rcases List.mem_cons.mp h1 with rfl | h1
        · exact List.mem_cons_self x _
        · by_cases hxy : x = y
          · subst hxy; exact List.mem_cons_self x _
          · refine List.mem_cons_of_mem _ ((ih (y :: seen)).mpr ⟨h1, ?_⟩)
            intro hmem
            rcases List.mem_cons.mp hmem with rfl | hmem2
            · exact hxy rfl
            · exact h2 hmem2

/-- First-occurrence deduplication produces no duplicates. -/
theorem dedupFirst_nodup : ∀ (l seen : List Str), (dedupFirst seen l).Nodup := by
  intro l
  induction l with
  | nil => intro seen; simp [dedupFirst]
  | cons x rest ih =>
    intro seen
    unfold dedupFirst
    by_cases hx : x ∈ seen
    · rw [if_pos hx]; exact ih seen
    · rw [if_neg hx]
      refine List.nodup_cons.mpr ⟨?_, ih (x :: seen)⟩
      intro hmem
      exact absurd (List.mem_cons_self x seen) ((dedupFirst_mem x rest (x :: seen)).mp hmem).2

/-- The body traversal in true document order, depth-first (each block in
order, a table contributing its cell paragraphs at its own position).
This definition follows the spec's words — "paragraphs and table cells
depth-first in document order" — and is the foil against which the
source's `iter_all_paragraphs` (all top-level paragraphs first, then all
tables) is compared. -/
def iterParagraphsDepthFirstSpec (body : List Block) : List Para :=
  (body.map fun b => match b with
    | .para p => [p]
    | .table t => tableParas t).flatten

/-- The scan order stated by the claim, following the spec's words: all
section headers' paragraphs, then header tables, then the body
depth-first in document order; deduplicated keeping first occurrences. -/
def scanSpecOrder (doc : Doc) : List Str :=
  dedupFirst []
    ((doc.sections.map (fun s => (s.header.paras.map paraPHs).flatten)).flatten ++
     (doc.sections.map
        (fun s => ((s.header.tables.map tableParas).flatten.map paraPHs).flatten)).flatten ++
     ((iterParagraphsDepthFirstSpec doc.body).map paraPHs).flatten)

/-- A document whose body is a table (carrying placeholder `a`) followed
by a paragraph (carrying placeholder `b`), with one empty header. -/
def exC4doc : Doc :=
  { sections := [{ header := { paras := [], tables := [] } }],
    body := [.table { rows := [ { cells := [ { paras :=
                [{ runs := [Run.txt ("\x7ba\x7d".data)], style := litNormal }] } ] } ] },
             .para { runs := [Run.txt ("\x7bb\x7d".data)], style := litNormal }] }

/-- C4, counterexample to the claim as stated: the scanner visits all
top-level body paragraphs before any table cell, so with a table before
a paragraph in document order the scan returns the paragraph's
placeholder first — not the depth-first document order stated by the
claim. -/
theorem C4_counterexample :
    find_placeholders_in_order exC4doc = ["\x7bb\x7d".data, "\x7ba\x7d".data] ∧
    scanSpecOrder exC4doc = ["\x7ba\x7d".data, "\x7bb\x7d".data] ∧
    find_placeholders_in_order exC4doc ≠ scanSpecOrder exC4doc := by
  refine ⟨by decide, by decide, by decide⟩

/-- The first-occurrence ordering stated by the claim, expressed
positionally and independently of any accumulator: the occurrence at
position `i` of the traversal is kept exactly when the same text does
not occur anywhere earlier in the traversal (`l.take i`), and kept
occurrences stay in traversal order.  Written from the claim's words
"first occurrence wins, duplicates suppressed", to be compared with the
source's `seen`-set `dedupFirst`. -/
def firstOccurrenceList (l : List Str) : List Str :=
  (List.range l.length).filterMap fun i =>
    if l.getD i [] ∈ l.take i then none else some (l.getD i [])

/-- Generalization of the first-occurrence characterization: running the
deduplication with a `seen` accumulator whose members are exactly those
of a prefix `pre` keeps the occurrence at position `i` exactly when its
text occurs neither in `pre` nor earlier in the list. -/
theorem dedupFirst_eq_firstOcc_aux :
    ∀ (l seen pre : List Str), (∀ z, z ∈ seen ↔ z ∈ pre) →
      dedupFirst seen l = (List.range l.length).filterMap fun i =>
        if l.getD i [] ∈ pre ++ l.take i then none else some (l.getD i []) := by
  intro l
  induction l with
  | nil => intro seen pre _; rfl
  | cons x rest ih =>
    intro seen pre hsp
    rw [List.length_cons, List.range_succ_eq_map, List.filterMap_cons, List.filterMap_map]
    have hfun : ((fun i => if (x :: rest).getD i [] ∈ pre ++ (x :: rest).take i
          then none else some ((x :: rest).getD i [])) ∘ Nat.succ) =
        (fun i => if rest.getD i [] ∈ (pre ++ [x]) ++ rest.take i
          then none else some (rest.getD i [])) := by
      funext i
      have h1 : (x :: rest).getD (i + 1) [] = rest.getD i [] := rfl
      have h2 : (x :: rest).take (i + 1) = x :: rest.take i := rfl
      simp only [Function.comp_apply, h1, h2]
      rw [show pre ++ x :: rest.take i = (pre ++ [x]) ++ rest.take i by simp]
    rw [hfun]
    have hhead : ((x :: rest).getD 0 [] ∈ pre ++ (x :: rest).take 0) ↔ x ∈ pre := by
      show x ∈ pre ++ [] ↔ x ∈ pre
      simp
    by_cases hx : x ∈ seen
    · have hxp : x ∈ pre := (hsp x).mp hx
      rw [if_pos (hhead.mpr hxp)]
      have hsp2 : ∀ z, z ∈ seen ↔ z ∈ pre ++ [x] := by
        intro z
        rw [hsp z]
        constructor
        · intro hz; exact List.mem_append_left _ hz
        · intro hz
          rcases List.mem_append.mp hz with hz | hz
          · exact hz
          · rw [List.mem_singleton.mp hz]; exact hxp
      rw [show dedupFirst seen (x :: rest) = dedupFirst seen rest from if_pos hx]
      exact ih seen (pre ++ [x]) hsp2
    · have hxp : x ∉ pre := fun hp => hx ((hsp x).mpr hp)
      rw [if_neg (fun hp => hxp (hhead.mp hp))]
      have hsp2 : ∀ z, z ∈ x :: seen ↔ z ∈ pre ++ [x] := by
        intro z
        rw [List.mem_cons, List.mem_append, List.mem_singleton, hsp z]
        tauto
      rw [show dedupFirst seen (x :: rest) = x :: dedupFirst (x :: seen) rest from
        if_neg hx]
      rw [ih (x :: seen) (pre ++ [x]) hsp2]
      rfl

/-- The deduplication of the source keeps exactly the first occurrence
of each text, in traversal order. -/
theorem dedupFirst_eq_firstOccurrenceList (l : List Str) :
    dedupFirst [] l = firstOccurrenceList l := by
  rw [firstOccurrenceList]
  have h := dedupFirst_eq_firstOcc_aux l [] [] (by simp)
  simpa using h

/-- C4 (amended): the scan traverses, for each section in order, that
header's paragraphs then its tables, then all top-level body paragraphs,
then the body tables' cell paragraphs (table after table) — the
traversal recorded by `docScanList`.  It returns each distinct
placeholder of that traversal exactly once (no duplicates), covers
exactly the placeholders occurring in it, preserves the traversal order
(the result is a subsequence), and first occurrence wins: the result is
exactly the position-level first-occurrence list of the traversal — the
occurrence at position `i` is kept precisely when the same placeholder
does not occur earlier in the traversal. -/
theorem C4_amended (doc : Doc) :
    (find_placeholders_in_order doc).Nodup ∧
    (∀ x, x ∈ find_placeholders_in_order doc ↔ x ∈ docScanList doc) ∧
    List.Sublist (find_placeholders_in_order doc) (docScanList doc) ∧
    find_placeholders_in_order doc = firstOccurrenceList (docScanList doc) := by
  unfold find_placeholders_in_order
  refine ⟨dedupFirst_nodup _ _, ?_, dedupFirst_sublist _ _,
    dedupFirst_eq_firstOccurrenceList _⟩
  intro x
  rw [dedupFirst_mem]
  simp

/-! ### Claim C2: SIM-table pruning -/

/-- A table whose single cell carries the placeholder `operateur1`. -/
def exC2tbl : Table :=
  { rows := [ { cells := [ { paras :=
      [{ runs := [Run.txt ("\x7boperateur1\x7d".data)], style := litNormal }] } ] } ] }

/-- A mapping giving that key a whitespace-only (hence non-empty) value. -/
def exC2map : Mapping := [("\x7boperateur1\x7d".data, " ".data)]

/-- C2, counterexample to the claim as stated: the family-1 key
`operateur1` is supplied a non-empty value (a single space), yet the
table is deleted, because the code judges emptiness after `strip`. -/
theorem C2_counterexample :
    tableSimIndex exC2tbl = some 1 ∧
    mapGet exC2map ("\x7boperateur1\x7d".data) = some (" ".data) ∧
    (" ".data : Str) ≠ [] ∧
    remove_empty_sim_tables [Block.table exC2tbl] exC2map = [] := by
  refine ⟨by decide, by decide, by decide, by decide⟩

/-- C2 (amended): a top-level table survives the pruning pass exactly
when it matches no indexed family, or some key of its (first-match)
family carries a value that is non-empty after stripping whitespace;
matching a family means some row's text contains one of the five
brace-wrapped keys `operateur_i, iccid_i, imsi_i, msisdn_i, datesync_i`
with `i` between 1 and 8 (first matching row, then smallest matching
`i`, wins), and the judgment reads the mapping directly, never the
rendered text (within `process_document` the pass runs on the body
before placeholder substitution).  All other blocks are kept. -/
theorem C2_theorem (m : Mapping) (body : List Block) :
    (∀ b, b ∈ remove_empty_sim_tables body m ↔
      b ∈ body ∧ ∀ t, b = Block.table t →
        ∀ i, tableSimIndex t = some i → familyHasValue m i = true) ∧
    (∀ t i, tableSimIndex t = some i →
      1 ≤ i ∧ i ≤ 8 ∧ ∃ r ∈ t.rows, ∃ k ∈ simKeys i, containsSub (rowText r) k = true) ∧
    (∀ i, familyHasValue m i = true ↔ ∃ k ∈ simKeys i, strip (mapGetD m k) ≠ []) := by
  refine ⟨?_, ?_, ?_⟩
  · intro b
    rw [remove_empty_sim_tables, List.mem_filter]
    constructor
    · rintro ⟨hmem, hkeep⟩
      refine ⟨hmem, ?_⟩
      rintro t rfl i hidx
      simp only [hidx] at hkeep
      simpa [shouldRemoveSim, hidx] using hkeep
    · rintro ⟨hmem, hkeep⟩
      refine ⟨hmem, ?_⟩
      cases b with
      | para p => rfl
      | table t =>
        simp only [shouldRemoveSim]
        cases hidx : tableSimIndex t with
        | none => rfl
        | some i => simp [hkeep t rfl i hidx]
  · intro t i hidx
    obtain ⟨r, hr, hfind⟩ := List.exists_of_findSome?_eq_some hidx
    rw [findSimIndex] at hfind
    have hmemi : i ∈ List.range' 1 8 := List.mem_of_find?_eq_some hfind
    have hp := List.find?_some hfind
    obtain ⟨k, hk, hck⟩ := List.any_eq_true.mp hp
    have hrange : 1 ≤ i ∧ i < 1 + 8 := by
      rw [List.mem_range'] at hmemi
      obtain ⟨j, hj, rfl⟩ := hmemi
      omega
    exact ⟨hrange.1, by omega, r, hr, k, hk, hck⟩
  · intro i
    rw [familyHasValue, List.any_eq_true]
    constructor
    · rintro ⟨k, hk, hv⟩
      exact ⟨k, hk, by simpa using hv⟩
    · rintro ⟨k, hk, hv⟩
      exact ⟨k, hk, by simpa using hv⟩

/-- A table carrying the key `operateur1` for the C2 witness. -/
def exC2keptTbl : Table := exC2tbl

/-- A mapping supplying a genuinely non-empty value for a family-1 key. -/
def exC2keptMap : Mapping := [("\x7biccid1\x7d".data, "89".data)]

/-- C2, witness: the amended theorem applied at a concrete input — one
family-1 key has a non-whitespace value, so the table survives. -/
theorem C2_witness :
    Block.table exC2keptTbl ∈ remove_empty_sim_tables [Block.table exC2keptTbl] exC2keptMap :=
  ((C2_theorem exC2keptMap [Block.table exC2keptTbl]).1 (Block.table exC2keptTbl)).mpr
    ⟨by decide, by
      rintro t ht i hi
      cases ht
      rw [show tableSimIndex exC2keptTbl = some 1 from by decide] at hi
      injection hi with hi1
      subst hi1
      decide⟩

/-! ### Claims C6 and C8: decisions resolution in `generate` -/

/-- Reading every position of a list through `getD` over its range
rebuilds the list. -/
theorem map_getD_range (d : Str) : ∀ (l : List Str),
    (List.range l.length).map (fun i => l.getD i d) = l := by
  intro l
  induction l with
  | nil => rfl
  | cons x xs ih =>
    rw [List.length_cons, List.range_succ_eq_map, List.map_cons, List.map_map]
    have hcomp : ((fun i => (x :: xs).getD i d) ∘ Nat.succ) = fun i => xs.getD i d := by
      funext i
      simp [List.getD]
    rw [hcomp, ih]
    simp [List.getD]

/-- Supplying the computed defaults list explicitly resolves to the same
decisions as supplying no list at all: at each position the caller's
entry equals the default, and the sentinel also resolves to the
default. -/
theorem resolveDecisions_defaults (headings : List Para) (m : Mapping) :
    resolveDecisions headings m (some (default_heading_decisions headings m)) =
      resolveDecisions headings m none := by
  have hlen : (default_heading_decisions headings m).length = headings.length := by
    simp [default_heading_decisions]
  show (List.range headings.length).map _ = _
  have hcongr : ∀ i ∈ List.range headings.length,
      (let choice := (default_heading_decisions headings m)[i]?.getD DEFAULT_SENTINEL
       if choice = DEFAULT_SENTINEL
       then (default_heading_decisions headings m).getD i []
       else choice) = (default_heading_decisions headings m).getD i [] := by
    intro i hi
    have hi2 : i < (default_heading_decisions headings m).length := by
      rw [hlen]; exact List.mem_range.mp hi
    have hsome : (default_heading_decisions headings m)[i]? =
        some ((default_heading_decisions headings m).getD i []) := by
      rw [List.getElem?_eq_getElem hi2, List.getD_eq_getElem?_getD,
        List.getElem?_eq_getElem hi2]
      rfl
    rw [hsome]
    by_cases hsent : (default_heading_decisions headings m).getD i [] = DEFAULT_SENTINEL
    · simp [hsent]
    · simp [hsent]
  rw [List.map_congr_left hcongr]
  show _ = default_heading_decisions headings m
  rw [← hlen]
  exact map_getD_range [] _

/-- C6: generating with no decisions list produces the same output as
generating with an explicit decisions list equal to every heading's
computed default phrase (the filled template, computed against the
mapping completed with empty defaults for every scanned placeholder):
the resolution step maps both to the same decisions, and the rest of the
pipeline is deterministic in its inputs. -/
theorem C6_theorem (src : Doc) (ow : Bool) (m0 : Mapping)
    (hc : List (Str × List CBlock)) (mk : Mapping) (fsx : Str → Bool)
    (envFail : Bool) (prev : Option Doc) :
    generate src ow m0
      (some (default_heading_decisions (collect_headings_in_order src)
        (setdefaults m0 (find_placeholders_in_order src)))) hc mk fsx envFail prev =
    generate src ow m0 none hc mk fsx envFail prev := by
  unfold generate
  simp only [resolveDecisions_defaults]

/-- C8: the explicit-decisions resolution has exactly one decision per
heading; each in-range entry equal to the `__DEFAULT__` sentinel
resolves to the computed default phrase, each other in-range entry is
taken literally, and every position beyond the end of the supplied list
resolves to the computed default. -/
theorem C8_theorem (headings : List Para) (m : Mapping) (ds : List Str) :
    (resolveDecisions headings m (some ds)).length = headings.length ∧
    (∀ i, i < headings.length →
      (resolveDecisions headings m (some ds)).getD i [] =
        if i < ds.length then
          (if ds.getD i [] = DEFAULT_SENTINEL
            then fill_with_mapping DEFAULT_ANALYSIS_TEMPLATE m
            else ds.getD i [])
        else fill_with_mapping DEFAULT_ANALYSIS_TEMPLATE m) := by
  constructor
  · simp [resolveDecisions]
  · intro i hi
    have hphi : (default_heading_decisions headings m).getD i [] =
        fill_with_mapping DEFAULT_ANALYSIS_TEMPLATE m := by
      have hi2 : i < (default_heading_decisions headings m).length := by
        simpa [default_heading_decisions] using hi
      rw [List.getD_eq_getElem?_getD, List.getElem?_eq_getElem hi2]
      simp [default_heading_decisions]
    rw [resolveDecisions]
    rw [List.getD_eq_getElem?_getD, List.getElem?_map, List.getElem?_range hi]
    by_cases hlt : i < ds.length
    · rw [if_pos hlt]
      have hgd : ds.getD i [] = ds[i] := by
        rw [List.getD_eq_getElem?_getD, List.getElem?_eq_getElem hlt]
        rfl
      simp only [Option.map_some', Option.getD_some, List.getElem?_eq_getElem hlt]
      rw [hgd]
      by_cases hsent : ds[i] = DEFAULT_SENTINEL
      · simp only [hsent, if_pos rfl]
        exact hphi
      · rw [if_neg hsent, if_neg hsent]
    · rw [if_neg hlt]
      simp only [Option.map_some', Option.getD_some]
      rw [List.getElem?_eq_none (by omega)]
      simp only [Option.getD_none, if_pos rfl]
      exact hphi

/-- C8, witness: two headings, one supplied decision: the in-range
literal entry is taken as is, the position beyond the list gets the
computed default phrase. -/
theorem C8_witness :
    (resolveDecisions [exC3np, exC3np] [] (["hello".data])).getD 0 [] = "hello".data ∧
    (resolveDecisions [exC3np, exC3np] [] (["hello".data])).getD 1 [] =
      fill_with_mapping DEFAULT_ANALYSIS_TEMPLATE [] := by
  constructor
  · have h := (C8_theorem [exC3np, exC3np] [] (["hello".data])).2 0 (by decide)
    simpa using h
  · have h := (C8_theorem [exC3np, exC3np] [] (["hello".data])).2 1 (by decide)
    simpa using h

/-! ### Claim C5: output persistence in `generate` -/

/-- Unfolding of `generate` (the overwrite deletion happens before the
pipeline; the save happens only on completion). -/
theorem generate_eq (src : Doc) (ow : Bool) (m0 : Mapping) (dsOpt : Option (List Str))
    (hc : List (Str × List CBlock)) (mk : Mapping) (fsx : Str → Bool)
    (envFail : Bool) (prev : Option Doc) :
    generate src ow m0 dsOpt hc mk fsx envFail prev =
      (if envFail = true then ((if ow = true then none else prev), false)
       else
        match process_document src (setdefaults m0 (find_placeholders_in_order src))
            (resolveDecisions (collect_headings_in_order src)
              (setdefaults m0 (find_placeholders_in_order src)) dsOpt) hc mk fsx with
        | none => ((if ow = true then none else prev), false)
        | some out => (some out, true)) := rfl

/-- The empty source document. -/
def exC5src : Doc := { sections := [], body := [] }

/-- A previously generated output file. -/
def exC5prev : Doc := { sections := [], body := [.para exC3np] }

/-- A file system on which no path exists. -/
def exC5fsx : Str → Bool := fun _ => false

/-- C5, counterexample to the claim as stated: with `overwrite`
requested, the previous output file is deleted before the pipeline runs,
so an exception mid-pipeline leaves no output file at all — the
previously existing output is not left untouched. -/
theorem C5_counterexample :
    (generate exC5src true [] none [] [] exC5fsx true (some exC5prev)).1 = none ∧
    some exC5prev ≠ (none : Option Doc) := by
  refine ⟨by decide, by decide⟩

/-- C5 (amended): a new output appears exactly when the full pipeline
completes (the save is the last step); if generation does not complete,
the output file is the previous one when `overwrite` was not requested,
and nothing at all when `overwrite` was requested, because the previous
output was already deleted before the pipeline ran. -/
theorem C5_theorem (src : Doc) (ow : Bool) (m0 : Mapping) (dsOpt : Option (List Str))
    (hc : List (Str × List CBlock)) (mk : Mapping) (fsx : Str → Bool)
    (envFail : Bool) (prev : Option Doc) :
    ((generate src ow m0 dsOpt hc mk fsx envFail prev).2 = false →
      (generate src ow m0 dsOpt hc mk fsx envFail prev).1 =
        if ow = true then none else prev) ∧
    (∀ out, envFail = false →
      process_document src (setdefaults m0 (find_placeholders_in_order src))
        (resolveDecisions (collect_headings_in_order src)
          (setdefaults m0 (find_placeholders_in_order src)) dsOpt) hc mk fsx = some out →
      generate src ow m0 dsOpt hc mk fsx envFail prev = (some out, true)) := by
  constructor
  · intro hfail
    rw [generate_eq] at hfail ⊢
    cases envFail with
    | true => simp
    | false =>
      simp only [Bool.false_eq_true, if_false] at hfail ⊢
      cases hproc : process_document src (setdefaults m0 (find_placeholders_in_order src))
          (resolveDecisions (collect_headings_in_order src)
            (setdefaults m0 (find_placeholders_in_order src)) dsOpt) hc mk fsx with
      | none => rfl
      | some out =>
        rw [hproc] at hfail
        exact absurd hfail (by simp)
  · intro out he hproc
    subst he
    rw [generate_eq]
    simp only [Bool.false_eq_true, if_false]
    rw [hproc]

/-- C5, witness: the amended theorem applied at concrete inputs: a
failing run without overwrite keeps the previous output, and a
completing run stores the pipeline result. -/
theorem C5_witness :
    (generate exC5src false [] none [] [] exC5fsx true (some exC5prev)).1 = some exC5prev ∧
    generate exC5src false [] none [] [] exC5fsx false (some exC5prev) =
      (some exC5src, true) := by
  constructor
  · have h := (C5_theorem exC5src false [] none [] [] exC5fsx true (some exC5prev)).1
      (by decide)
    simpa using h
  · exact (C5_theorem exC5src false [] none [] [] exC5fsx false (some exC5prev)).2
      exC5src rfl (by decide)

/-! ### Claim C7: inline marker substitution -/

/-- The chunks at key positions of a regex-split parts list, starting
from a parity flag (`true` means the head chunk is a captured key;
`keyChunks false parts` is the list of captured keys of `parts`, which
sit at the odd positions). -/
def keyChunks : Bool → List Str → List Str
  | _, [] => []
  | false, _ :: rest => keyChunks true rest
  | true, k :: rest => k :: keyChunks false rest

/-- Every key chunk of the parts list leaves its mark in the rebuilt
runs: an unmapped (stripped) key re-emits the literal marker, and a
mapped key whose file does not exist emits the INTROUVABLE
annotation. -/
theorem buildMarkerRuns_mem (fsx : Str → Bool) (markers : Mapping)
    (texts : List (Str × ImageText)) :
    ∀ (parts : List Str) (flag : Bool) (chunk : Str), chunk ∈ keyChunks flag parts →
      ((mapGet markers (strip chunk) = none →
        Run.txt (mkLiteralMarker (strip chunk)) ∈
          buildMarkerRuns fsx markers texts parts flag) ∧
       (∀ path, mapGet markers (strip chunk) = some path → fsx path = false →
        Run.txt (mkIntrouvable (strip chunk)) ∈
          buildMarkerRuns fsx markers texts parts flag)) := by
  intro parts
  induction parts with
  | nil => intro flag chunk h; cases flag <;> simp [keyChunks] at h
  | cons x rest ih =>
    intro flag chunk h
    cases flag
    · have h2 := ih true chunk (by simpa [keyChunks] using h)
      constructor
      · intro hnone
        exact List.mem_append_right _ (h2.1 hnone)
      · intro path hsome hfsx
        exact List.mem_append_right _ (h2.2 path hsome hfsx)
    · rcases List.mem_cons.mp (by simpa [keyChunks] using h) with rfl | hmem
      · constructor
        · intro hnone
          show _ ∈ buildMarkerRuns fsx markers texts (chunk :: rest) true
          simp only [buildMarkerRuns, hnone]
          exact List.mem_append_left _ (List.mem_singleton.mpr rfl)
        · intro path hsome hfsx
          show _ ∈ buildMarkerRuns fsx markers texts (chunk :: rest) true
          simp only [buildMarkerRuns, hsome, hfsx, Bool.not_false, if_true]
          exact List.mem_append_left _ (List.mem_singleton.mpr rfl)
      · have h2 := ih false chunk hmem
        constructor
        · intro hnone
          show _ ∈ buildMarkerRuns fsx markers texts (x :: rest) true
          unfold buildMarkerRuns
          exact List.mem_append_right _ (h2.1 hnone)
        · intro path hsome hfsx
          show _ ∈ buildMarkerRuns fsx markers texts (x :: rest) true
          unfold buildMarkerRuns
          exact List.mem_append_right _ (h2.2 path hsome hfsx)

/-- C7: with a non-empty marker map (so that the pass runs at all — the
first conjunct shows the document-level pass rewriting a body paragraph
through the paragraph-level function), for every paragraph whose run
text triggers the `[[IMG` pre-check and every captured marker key of its
regex split: a key absent from the marker map leaves the literal text
`[[IMG:key]]` among the rebuilt runs, and a key mapped to a path whose
file does not exist leaves the annotation `[[IMG:key - INTROUVABLE]]`
instead; the rebuild is total, so the operation continues over the
remaining chunks either way. -/
theorem C7_theorem (fsx : Str → Bool) (markers : Mapping)
    (texts : List (Str × ImageText)) (p : Para)
    (hm : markers ≠ [])
    (hpre : containsSub ((p.runs.map Run.text).flatten) litIMGPre = true) :
    (apply_images_at_markers fsx markers texts [Block.para p] =
      [Block.para (applyMarkersPara fsx markers texts p)]) ∧
    (∀ chunk ∈ keyChunks false (splitMarkers [] ((p.runs.map Run.text).flatten)),
      (mapGet markers (strip chunk) = none →
        Run.txt (mkLiteralMarker (strip chunk)) ∈
          (applyMarkersPara fsx markers texts p).runs) ∧
      (∀ path, mapGet markers (strip chunk) = some path → fsx path = false →
        Run.txt (mkIntrouvable (strip chunk)) ∈
          (applyMarkersPara fsx markers texts p).runs)) := by
  constructor
  · rw [apply_images_at_markers, if_neg hm]
    rfl
  · intro chunk hchunk
    have h2 := buildMarkerRuns_mem fsx markers texts
      (splitMarkers [] ((p.runs.map Run.text).flatten)) false chunk hchunk
    have hruns : (applyMarkersPara fsx markers texts p).runs =
        clearedRuns p.runs ++
          buildMarkerRuns fsx markers texts
            (splitMarkers [] ((p.runs.map Run.text).flatten)) false := by
      rw [applyMarkersPara]
      rw [if_neg (by rw [hpre]; exact fun hf => absurd hf (by simp))]
    rw [hruns]
    constructor
    · intro hnone
      exact List.mem_append_right _ (h2.1 hnone)
    · intro path hsome hfsx
      exact List.mem_append_right _ (h2.2 path hsome hfsx)

/-- The witness paragraph carrying two markers. -/
def exC7para : Para :=
  { runs := [Run.txt ("[[IMG:a]] and [[IMG:b]]".data)], style := litNormal }

/-- The witness marker map: only `b` is mapped. -/
def exC7markers : Mapping := [("b".data, "/img/x.png".data)]

/-- C7, witness: the theorem applied at a concrete paragraph: the
unmapped key `a` re-emits its literal marker, the mapped key `b` with a
missing file emits the INTROUVABLE annotation. -/
theorem C7_witness :
    Run.txt (mkLiteralMarker ("a".data)) ∈
      (applyMarkersPara exC5fsx exC7markers [] exC7para).runs ∧
    Run.txt (mkIntrouvable ("b".data)) ∈
      (applyMarkersPara exC5fsx exC7markers [] exC7para).runs := by
  have hA := ((C7_theorem exC5fsx exC7markers [] exC7para (by decide) (by decide)).2
    ("a".data) (by decide)).1 (by decide)
  have hB := ((C7_theorem exC5fsx exC7markers [] exC7para (by decide) (by decide)).2
    ("b".data) (by decide)).2 ("/img/x.png".data) (by decide) rfl
  exact ⟨by simpa using hA, by simpa using hB⟩

end RapportAuto
